import Mathlib

set_option linter.unusedTactic false
set_option linter.unnecessarySeqFocus false

/-!
Verification of the pixel-transform engine of the Image-Effects repository.

The engine lives in `src/components/ImageEffectsProcessor.tsx` (three
near-identical copies of the component appear in the repository; a fourth
copy with a per-tile-averaging Pixelate lives under
`src/.github/workflows/components/ImageEffectsProcessor.tsx`).  Every
algorithm consumes an RGBA byte buffer (`Uint8ClampedArray` of length
`width*height*4`, row-major, channel order R,G,B,A) and produces a new
buffer of the same dimensions.

Numbers: JavaScript arithmetic is modelled over `ℚ`; `Math.round` is
`⌊q + 1/2⌋`, `Math.floor` is `⌊q⌋`, and storing into a
`Uint8ClampedArray` clamps to `[0,255]` and rounds half-to-even.
`Math.sin`, `Math.cos`, `Math.PI` and the canvas blur/compositing passes
are environment-supplied; functions that call them are parametrised over
them.
-/

namespace ImageEffects

/-- An RGBA pixel buffer: width, height, and the flat byte sequence
(`data.length = width*height*4` for well-formed buffers). -/
structure Img where
  width : Nat
  height : Nat
  data : List Nat
deriving Repr, DecidableEq

/-- The byte of channel `c` (0 = R, 1 = G, 2 = B, 3 = A) of pixel `(x, y)`:
`data[(y*width + x)*4 + c]`. -/
def Img.chan (img : Img) (x y c : Nat) : Nat :=
  img.data.getD ((y * img.width + x) * 4 + c) 0

/-- Builds the flat byte sequence of a `W × H` buffer from a per-channel
function: entry `i` holds channel `i % 4` of pixel `(i/4 % W, i/4/W)`. -/
def mkData (W H : Nat) (f : Nat → Nat → Nat → Nat) : List Nat :=
  (List.range (W * H * 4)).map (fun i => f (i / 4 % W) (i / 4 / W) (i % 4))

theorem mkData_length (W H : Nat) (f : Nat → Nat → Nat → Nat) :
    (mkData W H f).length = W * H * 4 := by
  simp [mkData]

theorem index_lt (W H : Nat) {x y c : Nat} (hx : x < W) (hy : y < H) (hc : c < 4) :
    (y * W + x) * 4 + c < W * H * 4 := by
  have h1 : y * W + x < H * W := by
    calc y * W + x < y * W + W := by omega
    _ = (y + 1) * W := by ring
    _ ≤ H * W := Nat.mul_le_mul_right W (by omega)
  calc (y * W + x) * 4 + c < (y * W + x) * 4 + 4 := by omega
  _ = (y * W + x + 1) * 4 := by ring
  _ ≤ (H * W) * 4 := Nat.mul_le_mul_right 4 (by omega)
  _ = W * H * 4 := by ring

/-- Reading back a channel from a buffer built by `mkData` returns the
generating function's value. -/
theorem chan_mkData (W H : Nat) (f : Nat → Nat → Nat → Nat)
    {x y c : Nat} (hx : x < W) (hy : y < H) (hc : c < 4) :
    (Img.mk W H (mkData W H f)).chan x y c = f x y c := by
  have hidx := index_lt W H hx hy hc
  have h4 : ((y * W + x) * 4 + c) / 4 = y * W + x := by
    omega
  have hm4 : ((y * W + x) * 4 + c) % 4 = c := by
    omega
  have hmW : (y * W + x) % W = x := by
    rw [Nat.mul_add_mod' y W x, Nat.mod_eq_of_lt hx]
  have hdW : (y * W + x) / W = y := by
    have hW : 0 < W := by omega
    have hcomm : y * W + x = x + y * W := by ring
    rw [hcomm, Nat.add_mul_div_right x y hW, Nat.div_eq_of_lt hx]
    simp
  simp only [Img.chan, mkData]
  rw [List.getD_eq_getElem?_getD, List.getElem?_map, List.getElem?_range hidx]
  simp [h4, hm4, hmW, hdW]

/-- A buffer of the declared length is reproduced by `mkData` from its own
channel reads. -/
theorem mkData_chan_eq (img : Img) (hlen : img.data.length = img.width * img.height * 4)
    (f : Nat → Nat → Nat → Nat)
    (hf : ∀ x y c, x < img.width → y < img.height → c < 4 → f x y c = img.chan x y c) :
    mkData img.width img.height f = img.data := by
  apply List.ext_getElem
  · simp [mkData_length, hlen]
  intro i h1 h2
  have hi : i < img.width * img.height * 4 := by
    rw [mkData_length] at h1; exact h1
  have hW : 0 < img.width := by
    rcases Nat.eq_zero_or_pos img.width with h | h
    · rw [h] at hi; simp at hi
    · exact h
  have hx : i / 4 % img.width < img.width := Nat.mod_lt _ hW
  have hy : i / 4 / img.width < img.height := by
    apply Nat.div_lt_of_lt_mul
    omega
  have hc : i % 4 < 4 := Nat.mod_lt _ (by norm_num)
  have hrt : (mkData img.width img.height f)[i] =
      f (i / 4 % img.width) (i / 4 / img.width) (i % 4) := by
    simp only [mkData]
    rw [List.getElem_map, List.getElem_range]
  rw [hrt, hf _ _ _ hx hy hc]
  have hidx : (i / 4 / img.width * img.width + i / 4 % img.width) * 4 + i % 4 = i := by
    have h1 : i / 4 / img.width * img.width + i / 4 % img.width = i / 4 :=
      Nat.div_add_mod' (i / 4) img.width
    rw [h1]
    omega
  simp only [Img.chan, hidx]
  rw [List.getD_eq_getElem?_getD, List.getElem?_eq_getElem (by omega)]
  simp

/-- JavaScript `Math.round`: round half away from zero upward,
`⌊q + 1/2⌋`. -/
def jsRound (q : ℚ) : ℤ := ⌊q + 1 / 2⌋

/-- JavaScript `Math.floor`. -/
def jsFloor (q : ℚ) : ℤ := ⌊q⌋

/-- Rounding used when a float is stored into a `Uint8ClampedArray`:
nearest integer, ties to even. -/
def roundHalfEven (q : ℚ) : ℤ :=
  if q - ⌊q⌋ < 1 / 2 then ⌊q⌋
  else if (1 : ℚ) / 2 < q - ⌊q⌋ then ⌊q⌋ + 1
  else if Even ⌊q⌋ then ⌊q⌋ else ⌊q⌋ + 1

/-- Storage of a float into a `Uint8ClampedArray` slot after the engine's
own `Math.max(0, Math.min(255, ·))` clamp: clamp, then round ties-to-even. -/
def clampStore (q : ℚ) : Nat :=
  (roundHalfEven (max 0 (min 255 q))).toNat

/-- What one `switch (effect)` dispatch does, observationally. -/
inductive DispatchAction where
  /-- The matching effect algorithm ran. -/
  | applied (name : String)
  /-- The `default:` branch ran: the input image is drawn with no effect. -/
  | drawUnchanged
  /-- No case matched and there is no `default:` branch: nothing is drawn. -/
  | noAction
  /-- An `UnsupportedEffect` failure is reported (no dispatch copy in the
  source ever produces this). -/
  | raiseUnsupported
deriving Repr, DecidableEq

/-- The eight effect names of the `EffectType` union. -/
def knownEffects : List String :=
  ["pixelate", "halftone", "blur", "noise", "posterize", "glass-refraction",
   "emboss", "vintage"]

/-- `processEffectWithOptimizedImage` (first copy,
`src/components/ImageEffectsProcessor.tsx:131-159`): a `switch` over the
eight effect names with no `default:` branch — an unknown kind matches no
case and nothing happens. -/
def processEffectWithOptimizedImage (effect : String) : DispatchAction :=
  if effect = "pixelate" then .applied "pixelate"
  else if effect = "halftone" then .applied "halftone"
  else if effect = "blur" then .applied "blur"
  else if effect = "noise" then .applied "noise"
  else if effect = "posterize" then .applied "posterize"
  else if effect = "glass-refraction" then .applied "glass-refraction"
  else if effect = "emboss" then .applied "emboss"
  else if effect = "vintage" then .applied "vintage"
  else .noAction

/-- `processEffectWithOptimizedImage` (second and third copies,
`src/components/ImageEffectsProcessor.tsx:1182-1219` and `2076-2113`): the
same `switch` inside a try/catch, with a `default:` branch whose comment
reads "Fallback: just draw the image without effects" — an unknown kind
silently draws the input image unchanged. -/
def processEffectWithFallback (effect : String) : DispatchAction :=
  if effect = "pixelate" then .applied "pixelate"
  else if effect = "halftone" then .applied "halftone"
  else if effect = "blur" then .applied "blur"
  else if effect = "noise" then .applied "noise"
  else if effect = "posterize" then .applied "posterize"
  else if effect = "glass-refraction" then .applied "glass-refraction"
  else if effect = "emboss" then .applied "emboss"
  else if effect = "vintage" then .applied "vintage"
  else .drawUnchanged

/-- Modelled from the spec: the error kinds of §7 (`InvalidDimensions`,
`ParameterOutOfRange`, `UnsupportedEffect`).  The source code contains no
such failures; they exist here so the spec's error-handling claims can be
stated against the code's actual behaviour. -/
inductive EngineError where
  | invalidDimensions
  | parameterOutOfRange
  | unsupportedEffect
deriving Repr, DecidableEq

/-- The quantization-anchor list of `applyPosterizeEffect`
(`src/components/ImageEffectsProcessor.tsx:332-335`):
`quantLevels.push(Math.round((i / (levels - 1)) * 255))` for `i < levels`. -/
def quantLevels (levels : Nat) : List ℤ :=
  (List.range levels).map
    (fun i : Nat => jsRound ((i : ℚ) / ((levels : ℚ) - 1) * 255))

/-- The loop body of `quantize`
(`src/components/ImageEffectsProcessor.tsx:338-351`): walk the anchor list
keeping `nearest`/`minDiff`, replacing them only on a strictly smaller
distance. -/
def quantizeLoop (v : ℤ) : ℤ → Nat → List ℤ → ℤ
  | nearest, _, [] => nearest
  | nearest, minDiff, q :: rest =>
    if (v - q).natAbs < minDiff then quantizeLoop v q (v - q).natAbs rest
    else quantizeLoop v nearest minDiff rest

/-- `quantize(value)`: start from `quantLevels[0]` and scan the rest of the
anchor list (the source list always has length ≥ 2; the `[]` case is
unreachable there). -/
def quantize (qs : List ℤ) (v : ℤ) : ℤ :=
  match qs with
  | [] => 0
  | q :: rest => quantizeLoop v q (v - q).natAbs rest

/-- Modelled from the spec's words (§4.6): "Map every R/G/B sample to its
nearest anchor (ties broken toward the first anchor encountered in
ascending order)" — the leftmost minimiser of the distance to `v` among
`q :: rest`. -/
def specNearest (v : ℤ) : ℤ → List ℤ → ℤ
  | q, [] => q
  | q, p :: rest =>
    if (v - q).natAbs ≤ (v - specNearest v p rest).natAbs then q
    else specNearest v p rest

/-- The spec-side quantizer over a whole anchor list. -/
def specQuantize (qs : List ℤ) (v : ℤ) : ℤ :=
  match qs with
  | [] => 0
  | q :: rest => specNearest v q rest

/-- `applyPosterizeEffect` (`src/components/ImageEffectsProcessor.tsx:323-362`):
`levels = Math.max(2, Math.floor(params.levels))`, build the anchors, and
quantize every R/G/B byte, leaving alpha unchanged.  The source loop walks
the flat array in steps of 4 touching offsets 0–2 of each pixel; for a
buffer of the declared length that is exactly: every channel `c < 3` is
quantized and channel 3 is copied. -/
def applyPosterizeEffect (img : Img) (levels : ℚ) : Img :=
  let L := max 2 (jsFloor levels).toNat
  let qs := quantLevels L
  ⟨img.width, img.height, mkData img.width img.height (fun x y c =>
    if c = 3 then img.chan x y c else (quantize qs (img.chan x y c)).toNat)⟩

/-- The engine-level posterize call: the source performs no parameter
validation of any kind, so the result is always a success. -/
def posterizeEngine (img : Img) (levels : ℚ) : Except EngineError Img :=
  .ok (applyPosterizeEffect img levels)

/-- Channel sum over one tile of the per-tile-averaging
`applyPixelateEffect`
(`src/.github/workflows/components/ImageEffectsProcessor.tsx:128-141`):
`py` runs over `[y0, min(y0+pixelSize, height))` and `px` over
`[x0, min(x0+pixelSize, width))`. -/
def tileSum (img : Img) (p x0 y0 c : Nat) : Nat :=
  ((List.range (min (y0 + p) img.height - y0)).map (fun dy =>
    ((List.range (min (x0 + p) img.width - x0)).map (fun dx =>
      img.chan (x0 + dx) (y0 + dy) c)).sum)).sum

/-- The `count` accumulated by the same loops: the number of pixels the
tile actually contains. -/
def tileCount (img : Img) (p x0 y0 : Nat) : Nat :=
  (min (y0 + p) img.height - y0) * (min (x0 + p) img.width - x0)

/-- `applyPixelateEffect`, per-tile-averaging variant
(`src/.github/workflows/components/ImageEffectsProcessor.tsx:117-161`):
partition into `pixelSize × pixelSize` tiles anchored at multiples of
`pixelSize`, compute `Math.round(channelSum / count)` per tile and channel,
and write that value to every pixel of the tile.  Pixel `(x, y)` lies in
the tile with origin `(p·(x/p), p·(y/p))`, so the output there is that
tile's rounded mean. -/
def applyPixelateEffect (img : Img) (p : Nat) : Img :=
  ⟨img.width, img.height, mkData img.width img.height (fun x y c =>
    (jsRound ((tileSum img p (p * (x / p)) (p * (y / p)) c : ℚ) /
      (tileCount img p (p * (x / p)) (p * (y / p)) : ℚ))).toNat)⟩

/-- The per-pixel noise draw of `applyNoiseEffect`
(`src/components/ImageEffectsProcessor.tsx:314`):
`(Math.random() - 0.5) * amount * 2`, where `r` stands for the
`Math.random()` value in `[0, 1)`. -/
def noiseDelta (r amount : ℚ) : ℚ := (r - 1 / 2) * amount * 2

/-- `applyNoiseEffect` (`src/components/ImageEffectsProcessor.tsx:308-321`):
one delta per pixel, added identically to R, G and B, each sum clamped to
[0,255] and stored; alpha untouched.  `rand k` models the `Math.random()`
draw made for the k-th pixel of the flat array. -/
def applyNoiseEffect (img : Img) (amount : ℚ) (rand : Nat → ℚ) : Img :=
  ⟨img.width, img.height, mkData img.width img.height (fun x y c =>
    if c = 3 then img.chan x y c
    else clampStore ((img.chan x y c : ℚ) +
      noiseDelta (rand (y * img.width + x)) amount))⟩

/-- The emboss convolution kernel scaled by `strength`
(`src/components/ImageEffectsProcessor.tsx:496-500`). -/
def embossKernel (s : ℚ) : List (List ℚ) :=
  [[-2 * s, -1 * s, 0], [-1 * s, 1 * s, 1 * s], [0, 1 * s, 2 * s]]

/-- The 3×3 convolution sum of channel `c` at interior pixel `(x, y)`:
`Σ kernel[ky][kx] · src(x-1+kx, y-1+ky, c)` with kernel indices in 0..2
(the source iterates `ky, kx ∈ [-1, 1]` and reads `kernel[ky+1][kx+1]`). -/
def embossConv (img : Img) (s : ℚ) (x y c : Nat) : ℚ :=
  ((List.range 3).map (fun ky =>
    ((List.range 3).map (fun kx =>
      ((embossKernel s).getD ky []).getD kx 0 *
        (img.chan (x - 1 + kx) (y - 1 + ky) c : ℚ))).sum)).sum

/-- One convolved channel after the neutral offset 128, `Math.round`, and
the clamp to [0,255] (`src/components/ImageEffectsProcessor.tsx:521-531`). -/
def embossChannel (img : Img) (s : ℚ) (x y c : Nat) : ℤ :=
  max 0 (min 255 (jsRound (embossConv img s x y c + 128)))

/-- `applyEmbossEffect` (`src/components/ImageEffectsProcessor.tsx:479-560`):
convolve each interior R/G/B channel, blend toward the channel mean gray by
`colorBlend = min(1, strength·0.3)`, copy alpha from the source; then copy
all four channels of every border pixel (`x = 0`, `x = width-1`, `y = 0` or
`y = height-1`) unchanged from the source. -/
def applyEmbossEffect (img : Img) (s : ℚ) : Img :=
  ⟨img.width, img.height, mkData img.width img.height (fun x y c =>
    if x = 0 ∨ x = img.width - 1 ∨ y = 0 ∨ y = img.height - 1 then
      img.chan x y c
    else if c = 3 then img.chan x y c
    else
      let r := embossChannel img s x y 0
      let g := embossChannel img s x y 1
      let b := embossChannel img s x y 2
      let gray := jsRound (((r : ℚ) + (g : ℚ) + (b : ℚ)) / 3)
      let colorBlend := min 1 (s * (3 / 10))
      let ch := embossChannel img s x y c
      (max 0 (min 255 (jsRound ((gray : ℚ) * (1 - colorBlend) +
        (ch : ℚ) * colorBlend)))).toNat)⟩

/-- Parameter record of `applyGlassRefractionEffect`. -/
structure GlassParams where
  intensity : ℚ
  frequency : ℚ
  amplitude : ℚ
  direction : ℚ

/-- The combined three-term wave of `applyGlassRefractionEffect`
(`src/components/ImageEffectsProcessor.tsx:397-402`), parametrised over the
environment's `Math.sin` / `Math.cos` / `Math.PI` (`sinO`, `cosO`, `piV`):
`(wave1 + 0.7·wave2 + 0.5·wave3) / 2.2` at normalized coordinates
`(u, v)`. -/
def glassWave (sinO cosO : ℚ → ℚ) (piV : ℚ) (ff u v : ℚ) : ℚ :=
  (sinO (u * piV * ff) * cosO (v * piV * ff) +
   sinO (v * piV * ff * (13 / 10)) * cosO (u * piV * ff * (7 / 10)) * (7 / 10) +
   sinO ((u + v) * piV * ff * (8 / 10)) * (5 / 10)) / (22 / 10)

/-- The clamped source-pixel coordinates `(clampedX, clampedY)` of
`applyGlassRefractionEffect`
(`src/components/ImageEffectsProcessor.tsx:404-418`): directional plus
perpendicular displacement, `Math.round`, then clamp into bounds. -/
def glassSource (sinO cosO : ℚ → ℚ) (piV : ℚ) (img : Img) (p : GlassParams)
    (x y : Nat) : Nat × Nat :=
  let dirRad := p.direction * piV / 180
  let cosDir := cosO dirRad
  let sinDir := sinO dirRad
  let intensityFactor := p.intensity / 100
  let freqFactor := p.frequency * (1 / 10)
  let ampFactor := p.amplitude * intensityFactor
  let combinedWave := glassWave sinO cosO piV freqFactor
    ((x : ℚ) / (img.width : ℚ)) ((y : ℚ) / (img.height : ℚ))
  let distortionX := combinedWave * ampFactor * cosDir
  let distortionY := combinedWave * ampFactor * sinDir
  let perpDistortionX := combinedWave * ampFactor * (3 / 10) * (-sinDir)
  let perpDistortionY := combinedWave * ampFactor * (3 / 10) * cosDir
  let sourceX := jsRound ((x : ℚ) + distortionX + perpDistortionX)
  let sourceY := jsRound ((y : ℚ) + distortionY + perpDistortionY)
  ((max 0 (min ((img.width : ℤ) - 1) sourceX)).toNat,
   (max 0 (min ((img.height : ℤ) - 1) sourceY)).toNat)

/-- The warp pass of `applyGlassRefractionEffect`
(`src/components/ImageEffectsProcessor.tsx:390-458`): per output pixel,
sample the displaced source, apply the chromatic-aberration red/blue
re-sampling when `intensityFactor > 0.3` and the offset is positive,
multiply R/G/B by the brightness factor (round, clamp), and copy alpha
from the displaced source pixel. -/
def glassBase (sinO cosO : ℚ → ℚ) (piV : ℚ) (img : Img) (p : GlassParams) : Img :=
  ⟨img.width, img.height, mkData img.width img.height (fun x y c =>
    let src := glassSource sinO cosO piV img p x y
    let intensityFactor := p.intensity / 100
    let freqFactor := p.frequency * (1 / 10)
    let ampFactor := p.amplitude * intensityFactor
    let combinedWave := glassWave sinO cosO piV freqFactor
      ((x : ℚ) / (img.width : ℚ)) ((y : ℚ) / (img.height : ℚ))
    if c = 3 then img.chan src.1 src.2 3
    else
      let aberrationOffset := jsFloor (ampFactor * (1 / 2))
      let val : Nat :=
        if intensityFactor > 3 / 10 ∧ 0 < aberrationOffset then
          if c = 0 then
            img.chan (max 0 (min ((img.width : ℤ) - 1)
              ((src.1 : ℤ) + aberrationOffset))).toNat src.2 0
          else if c = 2 then
            img.chan (max 0 (min ((img.width : ℤ) - 1)
              ((src.1 : ℤ) - aberrationOffset))).toNat src.2 2
          else img.chan src.1 src.2 c
        else img.chan src.1 src.2 c
      let brightnessFactor := 1 + sinO (combinedWave * piV) * (1 / 10) * intensityFactor
      (max 0 (min 255 (jsRound ((val : ℚ) * brightnessFactor)))).toNat)⟩

/-- `applyGlassRefractionEffect`
(`src/components/ImageEffectsProcessor.tsx:364-477`): the warp pass,
followed — only when `intensityFactor > 0.5` — by the canvas pass that
composites a blurred 15%-opacity copy over the result; that canvas
compositing is environment-defined and abstracted as `postBlur`. -/
def applyGlassRefractionEffect (sinO cosO : ℚ → ℚ) (piV : ℚ)
    (postBlur : Img → Img) (img : Img) (p : GlassParams) : Img :=
  if p.intensity / 100 > 1 / 2 then
    postBlur (glassBase sinO cosO piV img p)
  else glassBase sinO cosO piV img p

/-- Halftone dot shapes. -/
inductive HalftoneShape where
  | circle
  | diamond
  | rectangle
deriving Repr, DecidableEq

/-- Parameter record of `applyHalftoneEffect`. -/
structure HalftoneParams where
  shapeType : HalftoneShape
  dotRadius : ℚ
  angle : ℚ
  colorMode : Bool

/-- Dot spacing of `applyHalftoneEffect`
(`src/components/ImageEffectsProcessor.tsx:204-214`): `1.8·r` for `r ≤ 2`,
`2.0·r` for `r ≤ 5`, else `2.5·r`. -/
def halftoneSpacing (r : ℚ) : ℚ :=
  if r ≤ 2 then r * (9 / 5) else if r ≤ 5 then r * 2 else r * (5 / 2)

/-- Number of iterations of `for (v = s/2; v < limit; v += s)`: the count
of naturals `k` with `s/2 + k·s < limit`. -/
def latticeSteps (s : ℚ) (limit : Nat) : Nat :=
  if s ≤ 0 then 0 else (Int.ceil ((limit : ℚ) / s - 1 / 2)).toNat

/-- The lattice points of the two nested halftone loops
(`src/components/ImageEffectsProcessor.tsx:222-223`), outer `y`, inner `x`,
in iteration order. -/
def halftonePoints (s : ℚ) (W H : Nat) : List (ℚ × ℚ) :=
  (List.range (latticeSteps s H)).flatMap (fun ky : Nat =>
    (List.range (latticeSteps s W)).map (fun kx : Nat =>
      (s / 2 + (kx : ℚ) * s, s / 2 + (ky : ℚ) * s)))

/-- Sampled source index along one axis
(`src/components/ImageEffectsProcessor.tsx:225-226`):
`Math.floor(Math.max(0, Math.min(coord, limit - 1)))`. -/
def halftoneSample (q : ℚ) (limit : Nat) : Nat :=
  (jsFloor (max 0 (min q ((limit : ℚ) - 1)))).toNat

/-- Dot size at a lattice point
(`src/components/ImageEffectsProcessor.tsx:229-250`): brightness of the
sampled pixel, normalized darkness (inverted unless `colorMode`), scaled
by the radius, with the small-radius boosts. -/
def halftoneDotSize (img : Img) (colorMode : Bool) (r x y : ℚ) : ℚ :=
  let sX := halftoneSample x img.width
  let sY := halftoneSample y img.height
  let brightness := ((img.chan sX sY 0 : ℚ) + (img.chan sX sY 1 : ℚ) +
    (img.chan sX sY 2 : ℚ)) / 3
  let nb := if colorMode then brightness / 255 else 1 - brightness / 255
  let ds := nb * r
  if r ≤ 2 then max (ds * (6 / 5)) (if nb > 1 / 10 then 3 / 10 else 0)
  else if r ≤ 3 then max ds (if nb > 1 / 10 then 2 / 5 else 0)
  else ds

/-- Draw threshold (`src/components/ImageEffectsProcessor.tsx:219`):
`0.1` for `r ≤ 2`, else `0.3`. -/
def minDotThreshold (r : ℚ) : ℚ := if r ≤ 2 then 1 / 10 else 3 / 10

/-- The all-white canvas produced by the background fill
(`ctx.fillRect` with `#ffffff`, opaque). -/
def whiteImg (W H : Nat) : Img := ⟨W, H, mkData W H (fun _ _ _ => 255)⟩

/-- `applyHalftoneEffect` (`src/components/ImageEffectsProcessor.tsx:188-300`),
parametrised over the canvas dot rasterizer `draw` (rotated circle /
diamond / rectangle fills are environment-defined): fill white, then for
each lattice point draw a dot only when its size exceeds the threshold. -/
def applyHalftoneEffect (draw : HalftoneParams → ℚ × ℚ → ℚ → Img → Img)
    (img : Img) (p : HalftoneParams) : Img :=
  let s := halftoneSpacing p.dotRadius
  (halftonePoints s img.width img.height).foldl
    (fun canvas pt =>
      let ds := halftoneDotSize img p.colorMode p.dotRadius pt.1 pt.2
      if ds > minDotThreshold p.dotRadius then draw p pt ds canvas else canvas)
    (whiteImg img.width img.height)

theorem roundHalfEven_sub_le (q : ℚ) : |(roundHalfEven q : ℚ) - q| ≤ 1 / 2 := by
  have h0 : (⌊q⌋ : ℚ) ≤ q := Int.floor_le q
  have h1 : q < (⌊q⌋ : ℚ) + 1 := Int.lt_floor_add_one q
  unfold roundHalfEven
  split
  · rw [abs_le]; constructor <;> push_cast <;> linarith
  · split
    · rw [abs_le]; constructor <;> push_cast <;> linarith
    · split <;> (rw [abs_le]; constructor <;> push_cast <;> linarith)

theorem roundHalfEven_intCast (n : ℤ) : roundHalfEven (n : ℚ) = n := by
  unfold roundHalfEven
  rw [Int.floor_intCast]
  norm_num

theorem specNearest_mem (v q : ℤ) (l : List ℤ) : specNearest v q l ∈ q :: l := by
  induction l generalizing q with
  | nil => simp [specNearest]
  | cons p rest ih =>
    rw [specNearest]
    by_cases h : (v - q).natAbs ≤ (v - specNearest v p rest).natAbs
    · rw [if_pos h]; simp
    · rw [if_neg h]
      have := ih p
      simp only [List.mem_cons] at this ⊢
      tauto

theorem specNearest_min (v q : ℤ) (l : List ℤ) :
    ∀ x ∈ q :: l, (v - specNearest v q l).natAbs ≤ (v - x).natAbs := by
  induction l generalizing q with
  | nil =>
    intro x hx
    simp only [List.mem_cons, List.not_mem_nil, or_false] at hx
    subst hx
    simp [specNearest]
  | cons p rest ih =>
    intro x hx
    rw [specNearest]
    by_cases h : (v - q).natAbs ≤ (v - specNearest v p rest).natAbs
    · rw [if_pos h]
      rcases List.mem_cons.mp hx with rfl | hx'
      · exact le_refl _
      · exact le_trans h (ih p x hx')
    · rw [if_neg h]
      push_neg at h
      rcases List.mem_cons.mp hx with rfl | hx'
      · exact le_of_lt h
      · exact ih p x hx'

theorem quantizeLoop_eq_specNearest (v : ℤ) (l : List ℤ) :
    ∀ b : ℤ, quantizeLoop v b (v - b).natAbs l = specNearest v b l := by
  induction l with
  | nil => intro b; rfl
  | cons q t ih =>
    intro b
    simp only [quantizeLoop]
    by_cases h : (v - q).natAbs < (v - b).natAbs
    · rw [if_pos h, ih q]
      have hmin : (v - specNearest v q t).natAbs ≤ (v - q).natAbs :=
        specNearest_min v q t q (List.mem_cons_self q t)
      rw [specNearest, if_neg (by omega)]
    · rw [if_neg h, ih b]
      push_neg at h
      cases t with
      | nil =>
        rw [specNearest, specNearest, specNearest, if_pos h]
      | cons p t' =>
        have hq : specNearest v b (q :: p :: t') =
            if (v - b).natAbs ≤ (v - specNearest v q (p :: t')).natAbs then b
            else specNearest v q (p :: t') := rfl
        have hq2 : specNearest v q (p :: t') =
            if (v - q).natAbs ≤ (v - specNearest v p t').natAbs then q
            else specNearest v p t' := rfl
        have hb : specNearest v b (p :: t') =
            if (v - b).natAbs ≤ (v - specNearest v p t').natAbs then b
            else specNearest v p t' := rfl
        rw [hq, hq2, hb]
        by_cases h2 : (v - q).natAbs ≤ (v - specNearest v p t').natAbs
        · rw [if_pos h2, if_pos h, if_pos (le_trans h h2)]
        · push_neg at h2
          rw [if_neg (not_le.mpr h2)]

theorem quantize_eq_specQuantize (qs : List ℤ) (v : ℤ) :
    quantize qs v = specQuantize qs v := by
  cases qs with
  | nil => rfl
  | cons q rest => exact quantizeLoop_eq_specNearest v rest q

theorem quantize_mem {qs : List ℤ} (h : qs ≠ []) (v : ℤ) : quantize qs v ∈ qs := by
  cases qs with
  | nil => exact absurd rfl h
  | cons q rest =>
    rw [quantize_eq_specQuantize]
    exact specNearest_mem v q rest

theorem quantize_min {qs : List ℤ} (v : ℤ) :
    ∀ x ∈ qs, (v - quantize qs v).natAbs ≤ (v - x).natAbs := by
  cases qs with
  | nil => intro x hx; simp at hx
  | cons q rest =>
    rw [quantize_eq_specQuantize]
    exact specNearest_min v q rest

theorem quantize_self {qs : List ℤ} {m : ℤ} (hm : m ∈ qs) : quantize qs m = m := by
  have h := quantize_min m m hm
  simp only [sub_self, Int.natAbs_zero, Nat.le_zero, Int.natAbs_eq_zero,
    sub_eq_zero] at h
  omega

theorem quantize_idem {qs : List ℤ} (h : qs ≠ []) (v : ℤ) :
    quantize qs (quantize qs v) = quantize qs v :=
  quantize_self (quantize_mem h v)

theorem quantLevels_length (L : Nat) : (quantLevels L).length = L := by
  unfold quantLevels
  rw [List.length_map, List.length_range]

theorem quantLevels_nonneg (L : Nat) : ∀ a ∈ quantLevels L, 0 ≤ a := by
  intro a ha
  unfold quantLevels at ha
  rw [List.mem_map] at ha
  obtain ⟨i, hmem, rfl⟩ := ha
  rw [List.mem_range] at hmem
  have hL : 1 ≤ L := by omega
  have hd : (0 : ℚ) ≤ (i : ℚ) / ((L : ℚ) - 1) * 255 := by
    apply mul_nonneg _ (by norm_num)
    apply div_nonneg (Nat.cast_nonneg i)
    have : (1 : ℚ) ≤ (L : ℚ) := by exact_mod_cast hL
    linarith
  unfold jsRound
  rw [Int.floor_nonneg]
  linarith

/-- C1 (counterexample to the claim as stated): for the unknown effect kind
`"sketch"`, the try/catch dispatch copy does not report any
`UnsupportedEffect` failure — it takes the `default:` branch and silently
draws the input image unchanged, exactly the passthrough the claim rules
out. -/
theorem C1_counterexample :
    "sketch" ∉ knownEffects ∧
    processEffectWithFallback "sketch" ≠ DispatchAction.raiseUnsupported ∧
    processEffectWithFallback "sketch" = DispatchAction.drawUnchanged := by
  refine ⟨by decide, by decide, rfl⟩

/-- C1 (amended): for every effect-kind value that is not one of the eight
known kinds, no error is reported: the plain dispatch copy performs no
action at all, and the try/catch dispatch copies fall to the `default:`
branch and silently draw the input image unchanged. -/
theorem unknown_effect_silently_handled :
    ∀ e : String, e ∉ knownEffects →
      processEffectWithOptimizedImage e = DispatchAction.noAction ∧
      processEffectWithFallback e = DispatchAction.drawUnchanged := by
  intro e he
  simp only [knownEffects, List.mem_cons, List.not_mem_nil, or_false,
    not_or] at he
  obtain ⟨h1, h2, h3, h4, h5, h6, h7, h8⟩ := he
  constructor
  · simp [processEffectWithOptimizedImage, h1, h2, h3, h4, h5, h6, h7, h8]
  · simp [processEffectWithFallback, h1, h2, h3, h4, h5, h6, h7, h8]

/-- Witness for the amended C1 theorem at the concrete unknown kind
`"sketch"`. -/
theorem unknown_effect_silently_handled_witness :
    processEffectWithOptimizedImage "sketch" = DispatchAction.noAction ∧
    processEffectWithFallback "sketch" = DispatchAction.drawUnchanged :=
  unknown_effect_silently_handled "sketch" (by decide)

/-- C2 (counterexample to the claim as stated): calling posterize with the
out-of-range `levels = 1` does not fail with `ParameterOutOfRange`; the
engine clamps the value to 2 and runs the algorithm, succeeding on a 1×1
buffer. -/
theorem C2_counterexample :
    (1 : ℚ) < 2 ∧
    posterizeEngine ⟨1, 1, [10, 20, 30, 255]⟩ 1 ≠
      Except.error EngineError.parameterOutOfRange ∧
    posterizeEngine ⟨1, 1, [10, 20, 30, 255]⟩ 1 =
      Except.ok (applyPosterizeEffect ⟨1, 1, [10, 20, 30, 255]⟩ 1) := by
  exact ⟨by norm_num, by simp [posterizeEngine], rfl⟩

/-- C2 (amended): the engine never reports `ParameterOutOfRange` for any
parameter value; an out-of-range posterize `levels < 2` is clamped to 2
(`Math.max(2, Math.floor(levels))`) and the algorithm runs on the clamped
value. -/
theorem posterize_out_of_range_clamped :
    (∀ (img : Img) (levels : ℚ),
      posterizeEngine img levels ≠ Except.error EngineError.parameterOutOfRange) ∧
    (∀ (img : Img) (levels : ℚ), levels < 2 →
      posterizeEngine img levels = Except.ok (applyPosterizeEffect img 2)) := by
  constructor
  · intro img levels
    simp [posterizeEngine]
  · intro img levels hlt
    have h1 : max 2 (jsFloor levels).toNat = 2 := by
      have : jsFloor levels < 2 := by
        unfold jsFloor
        rw [Int.floor_lt]
        exact_mod_cast hlt
      omega
    have h2 : max 2 (jsFloor (2 : ℚ)).toNat = 2 := by
      unfold jsFloor
      norm_num
    simp only [posterizeEngine, applyPosterizeEffect, h1, h2]

/-- Witness for the amended C2 theorem at the concrete out-of-range input
`levels = 1`. -/
theorem posterize_out_of_range_clamped_witness :
    posterizeEngine ⟨1, 1, [10, 20, 30, 255]⟩ 1 =
      Except.ok (applyPosterizeEffect ⟨1, 1, [10, 20, 30, 255]⟩ 2) :=
  posterize_out_of_range_clamped.2 ⟨1, 1, [10, 20, 30, 255]⟩ 1 (by norm_num)

/-- C4: the posterize anchors are `round(255·i/(levels-1))` for `i < levels`;
`quantize` maps every sample to its nearest anchor with ties broken toward
the first anchor in ascending list order (the spec-side `specQuantize`);
and for `levels = 2` the sample value 128 maps to anchor 255. -/
theorem posterize_nearest_anchor :
    (∀ (L i : Nat), i < L →
      (quantLevels L).getD i 0 = jsRound (255 * (i : ℚ) / ((L : ℚ) - 1))) ∧
    (∀ (qs : List ℤ) (v : ℤ), quantize qs v = specQuantize qs v) ∧
    quantize (quantLevels 2) 128 = 255 := by
  have hanchors : quantLevels 2 = [0, 255] := by
    unfold quantLevels
    rw [show List.range 2 = [0, 1] from rfl]
    simp only [List.map_cons, List.map_nil]
    norm_num [jsRound]
  refine ⟨?_, quantize_eq_specQuantize, by rw [hanchors]; decide⟩
  intro L i hi
  have hlen : i < (quantLevels L).length := by rw [quantLevels_length]; exact hi
  rw [List.getD_eq_getElem?_getD, List.getElem?_eq_getElem hlen]
  simp only [Option.getD_some]
  have hval : (quantLevels L)[i] = jsRound ((i : ℚ) / ((L : ℚ) - 1) * 255) := by
    simp only [quantLevels]
    rw [List.getElem_map, List.getElem_range]
  rw [hval]
  congr 1
  ring

/-- Witness for C4 at levels = 2, anchor index 1. -/
theorem posterize_nearest_anchor_witness :
    (quantLevels 2).getD 1 0 = jsRound (255 * (1 : ℚ) / ((2 : ℚ) - 1)) :=
  posterize_nearest_anchor.1 2 1 (by norm_num)

/-- C5: the posterize quantizer is idempotent on [0,255] for every valid
`levels`, and every output R/G/B byte of `applyPosterizeEffect` equals one
of the computed anchors. -/
theorem posterize_idempotent_output_anchor :
    (∀ (L : Nat) (x : ℤ), 2 ≤ L → L ≤ 16 → 0 ≤ x → x ≤ 255 →
      quantize (quantLevels L) (quantize (quantLevels L) x) =
        quantize (quantLevels L) x) ∧
    (∀ (img : Img) (levels : ℚ) (x y c : Nat),
      x < img.width → y < img.height → c < 3 →
      ∃ a ∈ quantLevels (max 2 (jsFloor levels).toNat),
        ((applyPosterizeEffect img levels).chan x y c : ℤ) = a) := by
  constructor
  · intro L x hL _ _ _
    apply quantize_idem
    intro hnil
    have := quantLevels_length L
    rw [hnil] at this
    simp at this
    omega
  · intro img levels x y c hx hy hc
    have hne : quantLevels (max 2 (jsFloor levels).toNat) ≠ [] := by
      intro hnil
      have := quantLevels_length (max 2 (jsFloor levels).toNat)
      rw [hnil] at this
      simp at this
      omega
    have hchan : (applyPosterizeEffect img levels).chan x y c =
        (quantize (quantLevels (max 2 (jsFloor levels).toNat))
          (img.chan x y c)).toNat := by
      have h3 : ¬(c = 3) := by omega
      have hmk := @chan_mkData img.width img.height
        (fun x y c => if c = 3 then img.chan x y c
          else (quantize (quantLevels (max 2 (jsFloor levels).toNat))
            (img.chan x y c)).toNat) x y c hx hy (by omega)
      exact hmk.trans (if_neg h3)
    refine ⟨quantize (quantLevels (max 2 (jsFloor levels).toNat))
      (img.chan x y c), quantize_mem hne _, ?_⟩
    rw [hchan]
    exact Int.toNat_of_nonneg (by
      have hmem := quantize_mem hne ((img.chan x y c : Nat) : ℤ)
      exact quantLevels_nonneg _ _ hmem)

/-- Witness for C5 at a concrete buffer and levels value. -/
theorem posterize_idempotent_output_anchor_witness :
    quantize (quantLevels 4) (quantize (quantLevels 4) 100) =
      quantize (quantLevels 4) 100 :=
  posterize_idempotent_output_anchor.1 4 100 (by norm_num) (by norm_num)
    (by norm_num) (by norm_num)

theorem pixelate_2x2_chan (img : Img) (hW : img.width = 2) (hH : img.height = 2)
    {x y c : Nat} (hx : x < 2) (hy : y < 2) (hc : c < 4) :
    (applyPixelateEffect img 2).chan x y c =
      (jsRound (((img.chan 0 0 c : ℚ) + (img.chan 1 0 c : ℚ) +
        (img.chan 0 1 c : ℚ) + (img.chan 1 1 c : ℚ)) / 4)).toNat := by
  obtain ⟨W, H, d⟩ := img
  have hW' : W = 2 := hW
  have hH' : H = 2 := hH
  subst hW' hH'
  have hx0 : x / 2 = 0 := Nat.div_eq_of_lt hx
  have hy0 : y / 2 = 0 := Nat.div_eq_of_lt hy
  refine Eq.trans (@chan_mkData 2 2 _ x y c hx hy hc) ?_
  simp only [hx0, hy0, Nat.mul_zero]
  have hsum : tileSum ⟨2, 2, d⟩ 2 0 0 c =
      (Img.mk 2 2 d).chan 0 0 c + (Img.mk 2 2 d).chan 1 0 c +
      (Img.mk 2 2 d).chan 0 1 c + (Img.mk 2 2 d).chan 1 1 c := by
    have hrange : List.range (min (0 + 2) (Img.mk 2 2 d).height - 0) = [0, 1] := rfl
    have hrange2 : List.range (min (0 + 2) (Img.mk 2 2 d).width - 0) = [0, 1] := rfl
    simp only [tileSum, hrange, hrange2, List.map_cons, List.map_nil,
      List.sum_cons, List.sum_nil, Nat.add_zero, Nat.zero_add]
    omega
  have hcount : tileCount ⟨2, 2, d⟩ 2 0 0 = 4 := rfl
  rw [hsum, hcount]
  congr 2
  push_cast
  ring

/-- C3 (counterexample to the claim as stated): for the 2×2 buffer whose R
channel holds 1,0,0,0, the R mean is 1/4, but the output R byte is
`Math.round(1/4) = 0`, so the output does not equal the exact (unrounded)
mean. -/
theorem C3_counterexample :
    ((applyPixelateEffect ⟨2, 2,
        [1, 0, 0, 0, 0, 0, 0, 0, 0, 0, 0, 0, 0, 0, 0, 0]⟩ 2).chan 0 0 0 : ℚ) ≠
      (((⟨2, 2, [1, 0, 0, 0, 0, 0, 0, 0, 0, 0, 0, 0, 0, 0, 0, 0]⟩ : Img).chan 0 0 0 : ℚ) +
        ((⟨2, 2, [1, 0, 0, 0, 0, 0, 0, 0, 0, 0, 0, 0, 0, 0, 0, 0]⟩ : Img).chan 1 0 0 : ℚ) +
        ((⟨2, 2, [1, 0, 0, 0, 0, 0, 0, 0, 0, 0, 0, 0, 0, 0, 0, 0]⟩ : Img).chan 0 1 0 : ℚ) +
        ((⟨2, 2, [1, 0, 0, 0, 0, 0, 0, 0, 0, 0, 0, 0, 0, 0, 0, 0]⟩ : Img).chan 1 1 0 : ℚ)) / 4 := by
  have h := @pixelate_2x2_chan ⟨2, 2, [1, 0, 0, 0, 0, 0, 0, 0, 0, 0, 0, 0, 0, 0, 0, 0]⟩
    rfl rfl 0 0 0 (by norm_num) (by norm_num) (by norm_num)
  rw [h]
  have h1 : (⟨2, 2, [1, 0, 0, 0, 0, 0, 0, 0, 0, 0, 0, 0, 0, 0, 0, 0]⟩ : Img).chan 0 0 0 = 1 := rfl
  have h2 : (⟨2, 2, [1, 0, 0, 0, 0, 0, 0, 0, 0, 0, 0, 0, 0, 0, 0, 0]⟩ : Img).chan 1 0 0 = 0 := rfl
  have h3 : (⟨2, 2, [1, 0, 0, 0, 0, 0, 0, 0, 0, 0, 0, 0, 0, 0, 0, 0]⟩ : Img).chan 0 1 0 = 0 := rfl
  have h4 : (⟨2, 2, [1, 0, 0, 0, 0, 0, 0, 0, 0, 0, 0, 0, 0, 0, 0, 0]⟩ : Img).chan 1 1 0 = 0 := rfl
  rw [h1, h2, h3, h4]
  have hfloor : ⌊(3 : ℚ) / 4⌋ = 0 := by
    rw [Int.floor_eq_zero_iff]
    constructor <;> norm_num
  have hjs : jsRound ((((1 : Nat) : ℚ) + ((0 : Nat) : ℚ) + ((0 : Nat) : ℚ) +
      ((0 : Nat) : ℚ)) / 4) = 0 := by
    unfold jsRound
    rw [show (((1 : Nat) : ℚ) + ((0 : Nat) : ℚ) + ((0 : Nat) : ℚ) +
      ((0 : Nat) : ℚ)) / 4 + 1 / 2 = 3 / 4 by push_cast; ring]
    exact hfloor
  rw [hjs]
  norm_num

/-- C3 (amended): for every 2×2 buffer, Pixelate with `pixelSize = 2`
produces all four output pixels equal, per channel R, G, B, A, to the
unweighted mean of the four input pixels rounded to the nearest integer
(`Math.round(sum/4)`). -/
theorem pixelate_2x2_rounded_mean :
    ∀ (img : Img), img.width = 2 → img.height = 2 →
    ∀ x y c : Nat, x < 2 → y < 2 → c < 4 →
      (applyPixelateEffect img 2).chan x y c =
        (jsRound (((img.chan 0 0 c : ℚ) + (img.chan 1 0 c : ℚ) +
          (img.chan 0 1 c : ℚ) + (img.chan 1 1 c : ℚ)) / 4)).toNat := by
  intro img hW hH x y c hx hy hc
  exact pixelate_2x2_chan img hW hH hx hy hc

/-- Witness for the amended C3 theorem on a concrete 2×2 buffer. -/
theorem pixelate_2x2_rounded_mean_witness :
    (applyPixelateEffect ⟨2, 2,
        [10, 0, 0, 255, 20, 0, 0, 255, 30, 0, 0, 255, 40, 0, 0, 255]⟩ 2).chan 1 1 0 =
      (jsRound ((((⟨2, 2, [10, 0, 0, 255, 20, 0, 0, 255, 30, 0, 0, 255, 40, 0, 0, 255]⟩ : Img).chan 0 0 0 : ℚ) +
        ((⟨2, 2, [10, 0, 0, 255, 20, 0, 0, 255, 30, 0, 0, 255, 40, 0, 0, 255]⟩ : Img).chan 1 0 0 : ℚ) +
        ((⟨2, 2, [10, 0, 0, 255, 20, 0, 0, 255, 30, 0, 0, 255, 40, 0, 0, 255]⟩ : Img).chan 0 1 0 : ℚ) +
        ((⟨2, 2, [10, 0, 0, 255, 20, 0, 0, 255, 30, 0, 0, 255, 40, 0, 0, 255]⟩ : Img).chan 1 1 0 : ℚ)) / 4)).toNat :=
  pixelate_2x2_rounded_mean
    ⟨2, 2, [10, 0, 0, 255, 20, 0, 0, 255, 30, 0, 0, 255, 40, 0, 0, 255]⟩
    rfl rfl 1 1 0 (by norm_num) (by norm_num) (by norm_num)

theorem chan_le_255 (img : Img) (hlen : img.data.length = img.width * img.height * 4)
    (hbytes : ∀ b ∈ img.data, b ≤ 255) {x y c : Nat}
    (hx : x < img.width) (hy : y < img.height) (hc : c < 4) :
    img.chan x y c ≤ 255 := by
  have hidx := index_lt img.width img.height hx hy hc
  unfold Img.chan
  rw [List.getD_eq_getElem?_getD, List.getElem?_eq_getElem (by omega)]
  simp only [Option.getD_some]
  exact hbytes _ (List.getElem_mem _)

theorem roundHalfEven_nonneg (q : ℚ) (hq : 0 ≤ q) : 0 ≤ roundHalfEven q := by
  unfold roundHalfEven
  have h0 : 0 ≤ ⌊q⌋ := Int.floor_nonneg.mpr hq
  split
  · exact h0
  · split
    · omega
    · split <;> omega

theorem clampStore_byte (b : Nat) (hb : b ≤ 255) : clampStore (b : ℚ) = b := by
  have hb' : ((b : ℚ)) ≤ 255 := by exact_mod_cast hb
  have h0 : (0 : ℚ) ≤ (b : ℚ) := Nat.cast_nonneg b
  unfold clampStore
  rw [min_eq_right hb', max_eq_right h0]
  rw [show ((b : ℚ)) = (((b : ℤ) : ℚ)) by push_cast; ring]
  rw [roundHalfEven_intCast]
  simp

theorem clampStore_close (b A : Nat) (hb : b ≤ 255) (d : ℚ)
    (hd1 : -(A : ℚ) ≤ d) (hd2 : d ≤ (A : ℚ)) :
    clampStore ((b : ℚ) + d) ≤ b + A ∧ b ≤ clampStore ((b : ℚ) + d) + A := by
  have hb' : ((b : ℚ)) ≤ 255 := by exact_mod_cast hb
  have h0b : (0 : ℚ) ≤ (b : ℚ) := Nat.cast_nonneg b
  have hA : (0 : ℚ) ≤ (A : ℚ) := Nat.cast_nonneg A
  set q : ℚ := (b : ℚ) + d with hq
  set y : ℚ := max 0 (min 255 q) with hy
  have hy1 : y ≤ (b : ℚ) + A := by
    apply max_le
    · linarith
    · calc min 255 q ≤ q := min_le_right _ _
      _ ≤ (b : ℚ) + A := by rw [hq]; linarith
  have hy2 : (b : ℚ) - A ≤ y := by
    calc (b : ℚ) - A ≤ min 255 q := le_min (by linarith) (by rw [hq]; linarith)
    _ ≤ y := le_max_right _ _
  have hy0 : (0 : ℚ) ≤ y := le_max_left _ _
  have hr := roundHalfEven_sub_le y
  rw [abs_le] at hr
  have hrn : 0 ≤ roundHalfEven y := roundHalfEven_nonneg y hy0
  have hup : roundHalfEven y ≤ (b : ℤ) + (A : ℤ) := by
    by_contra hcon
    push_neg at hcon
    have hint : (b : ℤ) + (A : ℤ) + 1 ≤ roundHalfEven y := hcon
    have hq2 : (((b : ℤ) + (A : ℤ) + 1 : ℤ) : ℚ) ≤ ((roundHalfEven y : ℤ) : ℚ) := by
      exact_mod_cast hint
    push_cast at hq2
    linarith
  have hlow : (b : ℤ) - (A : ℤ) ≤ roundHalfEven y := by
    by_contra hcon
    push_neg at hcon
    have hint : roundHalfEven y + 1 ≤ (b : ℤ) - (A : ℤ) := hcon
    have hq2 : ((roundHalfEven y + 1 : ℤ) : ℚ) ≤ (((b : ℤ) - (A : ℤ) : ℤ) : ℚ) := by
      exact_mod_cast hint
    push_cast at hq2
    linarith
  unfold clampStore
  rw [← hy]
  constructor <;> omega

theorem noiseDelta_bounds (r : ℚ) (A : Nat) (h0 : 0 ≤ r) (h1 : r < 1) :
    -(A : ℚ) ≤ noiseDelta r (A : ℚ) ∧ noiseDelta r (A : ℚ) ≤ (A : ℚ) := by
  unfold noiseDelta
  have hA : (0 : ℚ) ≤ (A : ℚ) := Nat.cast_nonneg A
  constructor <;> nlinarith

/-- C6: Noise with `amount = 0` returns a byte-identical buffer; for a
positive integer amount `A` every output R/G/B byte lies within `A` of the
corresponding input byte (the per-pixel delta, drawn once per pixel from
`[-A, A)`, is added identically to R, G and B before clamping); and the
alpha channel is never modified. -/
theorem noise_identity_and_bounded :
    (∀ (img : Img) (rand : Nat → ℚ),
      img.data.length = img.width * img.height * 4 →
      (∀ b ∈ img.data, b ≤ 255) →
      applyNoiseEffect img 0 rand = img) ∧
    (∀ (img : Img) (A : Nat) (rand : Nat → ℚ) (x y c : Nat),
      (∀ k, 0 ≤ rand k ∧ rand k < 1) →
      x < img.width → y < img.height → c < 3 →
      img.chan x y c ≤ 255 →
      (applyNoiseEffect img (A : ℚ) rand).chan x y c ≤ img.chan x y c + A ∧
      img.chan x y c ≤ (applyNoiseEffect img (A : ℚ) rand).chan x y c + A) ∧
    (∀ (img : Img) (amount : ℚ) (rand : Nat → ℚ) (x y : Nat),
      x < img.width → y < img.height →
      (applyNoiseEffect img amount rand).chan x y 3 = img.chan x y 3) := by
  refine ⟨?_, ?_, ?_⟩
  · intro img rand hlen hbytes
    have hdata : mkData img.width img.height (fun x y c =>
        if c = 3 then img.chan x y c
        else clampStore ((img.chan x y c : ℚ) +
          noiseDelta (rand (y * img.width + x)) 0)) = img.data := by
      apply mkData_chan_eq img hlen
      intro x y c hx hy hc
      by_cases h3 : c = 3
      · rw [if_pos h3]
      · rw [if_neg h3]
        have hb : img.chan x y c ≤ 255 := chan_le_255 img hlen hbytes hx hy hc
        have hzero : noiseDelta (rand (y * img.width + x)) 0 = 0 := by
          unfold noiseDelta; ring
        rw [hzero, add_zero]
        exact clampStore_byte _ hb
    obtain ⟨W, H, d⟩ := img
    simp only [applyNoiseEffect, Img.mk.injEq]
    exact ⟨trivial, trivial, hdata⟩
  · intro img A rand x y c hrand hx hy hc hb
    have h3 : ¬(c = 3) := by omega
    have hmk := @chan_mkData img.width img.height
      (fun x y c => if c = 3 then img.chan x y c
        else clampStore ((img.chan x y c : ℚ) +
          noiseDelta (rand (y * img.width + x)) (A : ℚ))) x y c hx hy (by omega)
    have heq : (applyNoiseEffect img (A : ℚ) rand).chan x y c =
        clampStore ((img.chan x y c : ℚ) +
          noiseDelta (rand (y * img.width + x)) (A : ℚ)) :=
      hmk.trans (if_neg h3)
    rw [heq]
    obtain ⟨hr0, hr1⟩ := hrand (y * img.width + x)
    obtain ⟨hd1, hd2⟩ := noiseDelta_bounds _ A hr0 hr1
    exact clampStore_close _ A hb _ hd1 hd2
  · intro img amount rand x y hx hy
    have hmk := @chan_mkData img.width img.height
      (fun x y c => if c = 3 then img.chan x y c
        else clampStore ((img.chan x y c : ℚ) +
          noiseDelta (rand (y * img.width + x)) amount)) x y 3 hx hy (by norm_num)
    exact hmk.trans (if_pos rfl)

/-- Witness for C6 on a concrete 1×1 buffer: identity at amount 0, the
within-A bound at A = 5, and the untouched alpha channel. -/
theorem noise_identity_and_bounded_witness :
    applyNoiseEffect ⟨1, 1, [100, 150, 200, 255]⟩ 0 (fun _ => 1 / 2) =
      ⟨1, 1, [100, 150, 200, 255]⟩ ∧
    (applyNoiseEffect ⟨1, 1, [100, 150, 200, 255]⟩ ((5 : Nat) : ℚ)
        (fun _ => 1 / 2)).chan 0 0 0 ≤
      (⟨1, 1, [100, 150, 200, 255]⟩ : Img).chan 0 0 0 + 5 ∧
    (applyNoiseEffect ⟨1, 1, [100, 150, 200, 255]⟩ 7 (fun _ => 1 / 2)).chan 0 0 3 =
      (⟨1, 1, [100, 150, 200, 255]⟩ : Img).chan 0 0 3 :=
  ⟨noise_identity_and_bounded.1 ⟨1, 1, [100, 150, 200, 255]⟩ (fun _ => 1 / 2)
      rfl (by decide),
   (noise_identity_and_bounded.2.1 ⟨1, 1, [100, 150, 200, 255]⟩ 5 (fun _ => 1 / 2)
      0 0 0 (fun k => by norm_num) (by decide) (by decide) (by decide) (by decide)).1,
   noise_identity_and_bounded.2.2 ⟨1, 1, [100, 150, 200, 255]⟩ 7 (fun _ => 1 / 2)
      0 0 (by decide) (by decide)⟩

/-- C7: for every input buffer and every strength, every outermost-border
pixel of the Emboss output (all four channels, alpha included) is
byte-identical to the input's pixel there — the border branch copies the
source and no convolution result is written to border positions. -/
theorem emboss_border_unchanged :
    ∀ (img : Img) (s : ℚ) (x y c : Nat),
      x < img.width → y < img.height → c < 4 →
      (x = 0 ∨ x = img.width - 1 ∨ y = 0 ∨ y = img.height - 1) →
      (applyEmbossEffect img s).chan x y c = img.chan x y c := by
  intro img s x y c hx hy hc hborder
  refine Eq.trans (@chan_mkData img.width img.height _ x y c hx hy hc) ?_
  exact if_pos hborder

/-- Witness for C7 on a concrete 3×3 buffer at the left-border pixel
`(0, 1)`. -/
theorem emboss_border_unchanged_witness :
    (applyEmbossEffect ⟨3, 3, List.replicate 36 7⟩ 1).chan 0 1 0 =
      (⟨3, 3, List.replicate 36 7⟩ : Img).chan 0 1 0 :=
  emboss_border_unchanged ⟨3, 3, List.replicate 36 7⟩ 1 0 1 0
    (by decide) (by decide) (by decide) (Or.inl rfl)

theorem floor_half : ⌊(1 : ℚ) / 2⌋ = 0 := by
  rw [Int.floor_eq_zero_iff]
  constructor <;> norm_num

theorem jsRound_intCast (n : ℤ) : jsRound (n : ℚ) = n := by
  unfold jsRound
  rw [Int.floor_int_add, floor_half, add_zero]

theorem jsRound_natCast (n : Nat) : jsRound (n : ℚ) = n := by
  rw [show ((n : ℚ)) = (((n : ℤ) : ℚ)) by push_cast; ring, jsRound_intCast]

theorem glassSource_intensity_zero (sinO cosO : ℚ → ℚ) (piV : ℚ) (img : Img)
    (p : GlassParams) (hI : p.intensity = 0) {x y : Nat}
    (hx : x < img.width) (hy : y < img.height) :
    glassSource sinO cosO piV img p x y = (x, y) := by
  unfold glassSource
  rw [hI]
  simp only [zero_div, mul_zero, zero_mul, add_zero]
  rw [jsRound_natCast, jsRound_natCast]
  simp only [Prod.mk.injEq]
  constructor <;> omega

/-- C9: GlassRefraction with `intensity = 0` is the identity on every
well-formed byte buffer, for every trig environment and every post-blur
pass: the displacement is zero, the chromatic aberration and the post-blur
pass are not taken, and the brightness factor is 1 — so the output equals
the input exactly (within and indeed without rounding tolerance). -/
theorem glass_intensity_zero_identity :
    ∀ (sinO cosO : ℚ → ℚ) (piV : ℚ) (postBlur : Img → Img)
      (img : Img) (p : GlassParams),
      p.intensity = 0 →
      img.data.length = img.width * img.height * 4 →
      (∀ b ∈ img.data, b ≤ 255) →
      applyGlassRefractionEffect sinO cosO piV postBlur img p = img := by
  intro sinO cosO piV postBlur img p hI hlen hbytes
  unfold applyGlassRefractionEffect
  rw [hI, if_neg (by norm_num)]
  have hdata : mkData img.width img.height (fun x y c =>
      let src := glassSource sinO cosO piV img p x y
      let intensityFactor := p.intensity / 100
      let freqFactor := p.frequency * (1 / 10)
      let ampFactor := p.amplitude * intensityFactor
      let combinedWave := glassWave sinO cosO piV freqFactor
        ((x : ℚ) / (img.width : ℚ)) ((y : ℚ) / (img.height : ℚ))
      if c = 3 then img.chan src.1 src.2 3
      else
        let aberrationOffset := jsFloor (ampFactor * (1 / 2))
        let val : Nat :=
          if intensityFactor > 3 / 10 ∧ 0 < aberrationOffset then
            if c = 0 then
              img.chan (max 0 (min ((img.width : ℤ) - 1)
                ((src.1 : ℤ) + aberrationOffset))).toNat src.2 0
            else if c = 2 then
              img.chan (max 0 (min ((img.width : ℤ) - 1)
                ((src.1 : ℤ) - aberrationOffset))).toNat src.2 2
            else img.chan src.1 src.2 c
          else img.chan src.1 src.2 c
        let brightnessFactor := 1 + sinO (combinedWave * piV) * (1 / 10) * intensityFactor
        (max 0 (min 255 (jsRound ((val : ℚ) * brightnessFactor)))).toNat) = img.data := by
    apply mkData_chan_eq img hlen
    intro x y c hx hy hc
    have hsrc := glassSource_intensity_zero sinO cosO piV img p hI hx hy
    have hbyte := chan_le_255 img hlen hbytes hx hy hc
    by_cases h3 : c = 3
    · subst h3
      simp only [hsrc, if_pos]
    · simp only [hsrc, hI, zero_div, mul_zero, add_zero, mul_one, if_neg h3]
      rw [if_neg (by norm_num)]
      rw [jsRound_natCast]
      omega
  obtain ⟨W, H, d⟩ := img
  simp only [glassBase, Img.mk.injEq]
  exact ⟨trivial, trivial, hdata⟩

/-- Witness for C9 on a concrete 1×1 buffer with a concrete trig
environment. -/
theorem glass_intensity_zero_identity_witness :
    applyGlassRefractionEffect (fun _ => 0) (fun _ => 1) 3 id
      ⟨1, 1, [1, 2, 3, 4]⟩ ⟨0, 8, 10, 0⟩ = ⟨1, 1, [1, 2, 3, 4]⟩ :=
  glass_intensity_zero_identity (fun _ => 0) (fun _ => 1) 3 id
    ⟨1, 1, [1, 2, 3, 4]⟩ ⟨0, 8, 10, 0⟩ rfl rfl (by decide)

theorem glassSource_eval :
    glassSource (fun _ => 1) (fun _ => 1) 0
      ⟨2, 2, [0, 0, 0, 7, 0, 0, 0, 8, 0, 0, 0, 9, 0, 0, 0, 99]⟩
      ⟨50, 8, 2, 0⟩ 0 0 = (1, 1) := by
  have hf1 : jsRound ((7 : ℚ) / 10) = 1 := by
    unfold jsRound
    rw [show (7 : ℚ) / 10 + 1 / 2 = 6 / 5 by norm_num, Int.floor_eq_iff]
    constructor <;> norm_num
  have hf2 : jsRound ((13 : ℚ) / 10) = 1 := by
    unfold jsRound
    rw [show (13 : ℚ) / 10 + 1 / 2 = 9 / 5 by norm_num, Int.floor_eq_iff]
    constructor <;> norm_num
  unfold glassSource glassWave
  norm_num
  rw [hf1, hf2]
  constructor <;> rfl

/-- C8 (counterexample to the claim as stated): with constant trig
oracles, intensity 50 and amplitude 2, the displacement at output pixel
(0,0) of a 2×2 buffer rounds to source pixel (1,1), and the output alpha
at (0,0) is the input alpha of the displaced pixel (99), not the input
alpha at the same unshifted position (7). -/
theorem C8_counterexample :
    (applyGlassRefractionEffect (fun _ => 1) (fun _ => 1) 0 id
      ⟨2, 2, [0, 0, 0, 7, 0, 0, 0, 8, 0, 0, 0, 9, 0, 0, 0, 99]⟩
      ⟨50, 8, 2, 0⟩).chan 0 0 3 = 99 ∧
    (⟨2, 2, [0, 0, 0, 7, 0, 0, 0, 8, 0, 0, 0, 9, 0, 0, 0, 99]⟩ : Img).chan 0 0 3 = 7 ∧
    (99 : Nat) ≠ 7 := by
  refine ⟨?_, rfl, by decide⟩
  unfold applyGlassRefractionEffect
  rw [if_neg (by norm_num)]
  refine Eq.trans (@chan_mkData 2 2 _ 0 0 3 (by norm_num) (by norm_num)
    (by norm_num)) ?_
  show (⟨2, 2, [0, 0, 0, 7, 0, 0, 0, 8, 0, 0, 0, 9, 0, 0, 0, 99]⟩ : Img).chan
      (glassSource (fun _ => 1) (fun _ => 1) 0
        ⟨2, 2, [0, 0, 0, 7, 0, 0, 0, 8, 0, 0, 0, 9, 0, 0, 0, 99]⟩
        ⟨50, 8, 2, 0⟩ 0 0).1
      (glassSource (fun _ => 1) (fun _ => 1) 0
        ⟨2, 2, [0, 0, 0, 7, 0, 0, 0, 8, 0, 0, 0, 9, 0, 0, 0, 99]⟩
        ⟨50, 8, 2, 0⟩ 0 0).2 3 = 99
  rw [glassSource_eval]
  rfl

/-- C8 (amended): whenever the post-blur pass is not triggered
(`intensityFactor ≤ 0.5`), the output alpha at `(x, y)` equals the input
alpha at the displaced, clamped source position `glassSource(x, y)` — not
at the unshifted position. -/
theorem glass_alpha_from_displaced_source :
    ∀ (sinO cosO : ℚ → ℚ) (piV : ℚ) (postBlur : Img → Img)
      (img : Img) (p : GlassParams) (x y : Nat),
      x < img.width → y < img.height →
      ¬(p.intensity / 100 > 1 / 2) →
      (applyGlassRefractionEffect sinO cosO piV postBlur img p).chan x y 3 =
        img.chan (glassSource sinO cosO piV img p x y).1
          (glassSource sinO cosO piV img p x y).2 3 := by
  intro sinO cosO piV postBlur img p x y hx hy hIF
  unfold applyGlassRefractionEffect
  rw [if_neg hIF]
  exact Eq.trans (@chan_mkData img.width img.height _ x y 3 hx hy (by norm_num)) rfl

/-- Witness for the amended C8 theorem at the concrete trig environment
and buffer of the counterexample. -/
theorem glass_alpha_from_displaced_source_witness :
    (applyGlassRefractionEffect (fun _ => 1) (fun _ => 1) 0 id
      ⟨2, 2, [0, 0, 0, 7, 0, 0, 0, 8, 0, 0, 0, 9, 0, 0, 0, 99]⟩
      ⟨50, 8, 2, 0⟩).chan 0 1 3 =
      (⟨2, 2, [0, 0, 0, 7, 0, 0, 0, 8, 0, 0, 0, 9, 0, 0, 0, 99]⟩ : Img).chan
        (glassSource (fun _ => 1) (fun _ => 1) 0
          ⟨2, 2, [0, 0, 0, 7, 0, 0, 0, 8, 0, 0, 0, 9, 0, 0, 0, 99]⟩
          ⟨50, 8, 2, 0⟩ 0 1).1
        (glassSource (fun _ => 1) (fun _ => 1) 0
          ⟨2, 2, [0, 0, 0, 7, 0, 0, 0, 8, 0, 0, 0, 9, 0, 0, 0, 99]⟩
          ⟨50, 8, 2, 0⟩ 0 1).2 3 :=
  glass_alpha_from_displaced_source (fun _ => 1) (fun _ => 1) 0 id
    ⟨2, 2, [0, 0, 0, 7, 0, 0, 0, 8, 0, 0, 0, 9, 0, 0, 0, 99]⟩
    ⟨50, 8, 2, 0⟩ 0 1 (by decide) (by decide) (by norm_num)

theorem foldl_eq_init {α β : Type} (f : α → β → α) (l : List β)
    (hid : ∀ b ∈ l, ∀ a, f a b = a) : ∀ a, l.foldl f a = a := by
  induction l with
  | nil => intro a; rfl
  | cons b t ih =>
    intro a
    rw [List.foldl_cons, hid b (List.mem_cons_self b t)]
    exact ih (fun x hx a => hid x (List.mem_cons_of_mem b hx) a) a

theorem halftoneSpacing_pos {r : ℚ} (hr : 1 ≤ r) : 0 < halftoneSpacing r := by
  unfold halftoneSpacing
  split
  · linarith
  · split <;> linarith

theorem minDotThreshold_pos (r : ℚ) : 0 < minDotThreshold r := by
  unfold minDotThreshold
  split <;> norm_num

theorem latticeSteps_lt {s : ℚ} (hs : 0 < s) {k limit : Nat}
    (hk : k < latticeSteps s limit) : s / 2 + (k : ℚ) * s < (limit : ℚ) := by
  unfold latticeSteps at hk
  rw [if_neg (not_le.mpr hs)] at hk
  have h1 : (k : ℤ) < ⌈(limit : ℚ) / s - 1 / 2⌉ := by omega
  have h2 : ((k : ℤ) : ℚ) < (limit : ℚ) / s - 1 / 2 := Int.lt_ceil.mp h1
  have h3 : ((k : ℚ) + 1 / 2) < (limit : ℚ) / s := by push_cast at h2; linarith
  have h4 : ((k : ℚ) + 1 / 2) * s < (limit : ℚ) := (lt_div_iff₀ hs).mp h3
  have h5 : ((k : ℚ) + 1 / 2) * s = (k : ℚ) * s + s / 2 := by ring
  linarith

theorem halftonePoints_mem {s : ℚ} {W H : Nat} {pt : ℚ × ℚ}
    (hpt : pt ∈ halftonePoints s W H) (hs : 0 < s) :
    0 < pt.1 ∧ pt.1 < (W : ℚ) ∧ 0 < pt.2 ∧ pt.2 < (H : ℚ) := by
  unfold halftonePoints at hpt
  rw [List.mem_flatMap] at hpt
  obtain ⟨ky, hky, hpt⟩ := hpt
  rw [List.mem_map] at hpt
  obtain ⟨kx, hkx, rfl⟩ := hpt
  rw [List.mem_range] at hky hkx
  have hx := latticeSteps_lt hs hkx
  have hy := latticeSteps_lt hs hky
  have hkx0 : (0 : ℚ) ≤ (kx : ℚ) := Nat.cast_nonneg kx
  have hky0 : (0 : ℚ) ≤ (ky : ℚ) := Nat.cast_nonneg ky
  refine ⟨?_, hx, ?_, hy⟩
  · have : (0 : ℚ) ≤ (kx : ℚ) * s := mul_nonneg hkx0 (le_of_lt hs)
    simp only
    linarith
  · have : (0 : ℚ) ≤ (ky : ℚ) * s := mul_nonneg hky0 (le_of_lt hs)
    simp only
    linarith

theorem halftoneSample_lt {q : ℚ} {limit : Nat} (hpos : 0 < q)
    (hlt : q < (limit : ℚ)) : halftoneSample q limit < limit := by
  have hlim : 1 ≤ limit := by
    rcases Nat.eq_zero_or_pos limit with h | h
    · subst h
      norm_num at hlt
      linarith
    · exact h
  have hlim' : (1 : ℚ) ≤ (limit : ℚ) := by exact_mod_cast hlim
  have hub : max 0 (min q ((limit : ℚ) - 1)) ≤ (limit : ℚ) - 1 := by
    apply max_le
    · linarith
    · exact min_le_right _ _
  have h0 : (0 : ℚ) ≤ max 0 (min q ((limit : ℚ) - 1)) := le_max_left _ _
  have hfl : ⌊max 0 (min q ((limit : ℚ) - 1))⌋ ≤ (limit : ℤ) - 1 := by
    have h := Int.floor_le_floor hub
    have h2 : ⌊(limit : ℚ) - 1⌋ = (limit : ℤ) - 1 := by
      rw [show ((limit : ℚ) - 1) = (((limit : ℤ) - 1 : ℤ) : ℚ) by push_cast; ring]
      exact Int.floor_intCast _
    omega
  have hfl0 : 0 ≤ ⌊max 0 (min q ((limit : ℚ) - 1))⌋ := Int.floor_nonneg.mpr h0
  unfold halftoneSample jsFloor
  omega

theorem halftoneDotSize_white (img : Img) (r x y : ℚ)
    (hwhite : ∀ a b c, a < img.width → b < img.height → c < 3 →
      img.chan a b c = 255)
    (hsX : halftoneSample x img.width < img.width)
    (hsY : halftoneSample y img.height < img.height) :
    halftoneDotSize img false r x y = 0 := by
  simp only [halftoneDotSize]
  rw [hwhite _ _ 0 hsX hsY (by norm_num), hwhite _ _ 1 hsX hsY (by norm_num),
    hwhite _ _ 2 hsX hsY (by norm_num)]
  norm_num

/-- C10: on an all-white input (R = G = B = 255 everywhere) with
`colorMode = false`, every lattice point of the Halftone pass computes
darkness 0 and dot size 0, no dot reaches the draw threshold, and the
output is exactly the white background fill — for every dot radius in
[1, 20], every angle, every shape, and every rasterizer. -/
theorem halftone_white_input_blank :
    ∀ (draw : HalftoneParams → ℚ × ℚ → ℚ → Img → Img) (img : Img)
      (p : HalftoneParams),
      1 ≤ p.dotRadius → p.dotRadius ≤ 20 → p.colorMode = false →
      (∀ x y c, x < img.width → y < img.height → c < 3 →
        img.chan x y c = 255) →
      (∀ pt ∈ halftonePoints (halftoneSpacing p.dotRadius) img.width img.height,
        halftoneDotSize img p.colorMode p.dotRadius pt.1 pt.2 = 0) ∧
      applyHalftoneEffect draw img p = whiteImg img.width img.height := by
  intro draw img p hr1 hr20 hcm hwhite
  have hs : 0 < halftoneSpacing p.dotRadius := halftoneSpacing_pos hr1
  have hzero : ∀ pt ∈ halftonePoints (halftoneSpacing p.dotRadius)
      img.width img.height,
      halftoneDotSize img p.colorMode p.dotRadius pt.1 pt.2 = 0 := by
    intro pt hpt
    obtain ⟨h1, h2, h3, h4⟩ := halftonePoints_mem hpt hs
    rw [hcm]
    exact halftoneDotSize_white img _ _ _ hwhite
      (halftoneSample_lt h1 h2) (halftoneSample_lt h3 h4)
  refine ⟨hzero, ?_⟩
  unfold applyHalftoneEffect
  apply foldl_eq_init
  intro pt hpt a
  simp only [hzero pt hpt]
  rw [if_neg (not_lt.mpr (le_of_lt (minDotThreshold_pos p.dotRadius)))]

/-- Witness for C10 on a concrete all-white 1×1 buffer with radius 1. -/
theorem halftone_white_input_blank_witness :
    (∀ pt ∈ halftonePoints
        (halftoneSpacing (HalftoneParams.mk HalftoneShape.circle 1 45 false).dotRadius)
        (Img.mk 1 1 [255, 255, 255, 255]).width
        (Img.mk 1 1 [255, 255, 255, 255]).height,
      halftoneDotSize ⟨1, 1, [255, 255, 255, 255]⟩
        (HalftoneParams.mk HalftoneShape.circle 1 45 false).colorMode
        (HalftoneParams.mk HalftoneShape.circle 1 45 false).dotRadius
        pt.1 pt.2 = 0) ∧
    applyHalftoneEffect (fun _ _ _ canvas => canvas)
      ⟨1, 1, [255, 255, 255, 255]⟩
      ⟨HalftoneShape.circle, 1, 45, false⟩ = whiteImg 1 1 :=
  halftone_white_input_blank (fun _ _ _ canvas => canvas)
    ⟨1, 1, [255, 255, 255, 255]⟩ ⟨HalftoneShape.circle, 1, 45, false⟩
    (by norm_num) (by norm_num) rfl
    (by
      intro x y c hx hy hc
      interval_cases x <;> interval_cases y <;> interval_cases c <;> rfl)

end ImageEffects
